import Mathlib

/-!
Verification of the indexed-expression evaluation engine of the CTF
(Cyclops Tensor Framework) C++ interface layer.

The development shallowly embeds:

* `tCTF_Idx_Tensor` (src/unnamed/part_000): the indexed view over a tensor,
  its constructors and the operators `=`, `+=`, `-=`, `*=`, and the leaf
  `execute`;
* the commented-out `get_intermediate` shape/symmetry inference
  (src/unnamed/part_000, lines 46-77);
* the `CTF_Tensor::sum` / `CTF_Tensor::contract` primitives and the
  `CTF_Sparse_Tensor::read` / `write` operations, whose bodies are not part
  of the two provided files; they are modelled from their doc comments in
  src/src/interface/ctf_tensor.h (`dest = beta*dest + alpha*f(operands)`);
* the Term expression engine (`Sum.execute` / `Contract.execute`), whose
  implementation is likewise not among the provided files; it is modelled
  from the specification's description in section 4.2.

Tensor elements are modelled as integers: every claim under study is about
the dispatch algebra (which primitive is called, with which alpha/beta and
index maps), not about rounding, so any commutative ring carrier is
faithful.
-/

namespace CTF

/-- A coordinate of a tensor: one natural number per dimension. -/
abbrev Coord := List Nat

/-- The value of one distributed tensor: its edge lengths and its contents,
a total function on coordinates (only coordinates of length `lens.length`
with entries below the lengths are meaningful). -/
structure TensorVal where
  lens : List Nat
  data : Coord → Int

/-- An indexed view (`tCTF_Idx_Tensor` data part): the parent tensor
(identified by a store index), the index-label map, and the scale factor.
`scale` doubles as the execution beta when the view is a destination,
exactly as in the source. -/
structure IdxT where
  parent : Nat
  idx : List Char
  scale : Int
deriving DecidableEq

/-- The collection of live tensors: a memory of tensor values indexed by
naturals, and the next free identifier (fresh intermediates are allocated
at `next`). -/
structure Store where
  mem : Nat → TensorVal
  next : Nat

/-- A record of one primitive-kernel invocation, as issued by the engine. -/
inductive PrimCall
  | sum (dest : Nat) (alpha : Int) (src : Nat) (idxA : List Char)
        (beta : Int) (idxB : List Char)
  | contract (dest : Nat) (alpha : Int) (srcA : Nat) (idxA : List Char)
        (srcB : Nat) (idxB : List Char) (beta : Int) (idxC : List Char)
deriving DecidableEq

/-- Modelled from the spec: the Term expression node (section 3 of the
spec: tagged union Leaf | Sum | Contract; the Term headers are not among
the provided source files).  A Sum holds an ordered sequence of at least
two children; the sequence is represented by left-nested binary `sum`
nodes, which yields exactly the same sequential execution order and
semantics.  Each non-leaf node carries its top-level scale (the field the
source's `operator-=` multiplies by -1); a leaf's top-level scale is the
scale of the wrapped view. -/
inductive Term
  | leaf (v : IdxT)
  | sum (sc : Int) (a b : Term)
  | contract (sc : Int) (l r : Term)
deriving DecidableEq

/-- Multiplies the top-level scale of a term: the meaning of the source's
`B.scale *= -1.0` (part_000, line 148) generalised to any factor. -/
def scaleTerm (f : Int) : Term → Term
  | .leaf v => .leaf { v with scale := f * v.scale }
  | .sum sc a b => .sum (f * sc) a b
  | .contract sc l r => .contract (f * sc) l r

/-- The views wrapped by the leaves of a term, in order. -/
def leaves : Term → List IdxT
  | .leaf v => [v]
  | .sum _ a b => leaves a ++ leaves b
  | .contract _ l r => leaves l ++ leaves r

/-- Updates a tensor memory at one identifier. -/
def updMem (m : Nat → TensorVal) (i : Nat) (tv : TensorVal) : Nat → TensorVal :=
  fun j => if j = i then tv else m j

/-- The label assignment read off a destination coordinate: label
`didx[k]` is assigned coordinate entry `c[k]`; labels not in `didx` get 0. -/
def envOf (didx : List Char) (c : Coord) : Char → Nat :=
  fun ch =>
    match (didx.zip c).find? (fun p => p.1 = ch) with
    | some p => p.2
    | none => 0

/-- Pointwise update of a label assignment. -/
def updEnv (e : Char → Nat) (ch : Char) (v : Nat) : Char → Nat :=
  fun x => if x = ch then v else e x

/-- Sum of `f` over `0, ..., n-1`. -/
def rangeSum (n : Nat) (f : Nat → Int) : Int := ((List.range n).map f).sum

/-- Sums `f` over all assignments of the listed labels, each ranging below
its listed edge length, extending the base assignment `e`. -/
def sumEnv : List (Char × Nat) → ((Char → Nat) → Int) → (Char → Nat) → Int
  | [], f, e => f e
  | (ch, n) :: rest, f, e => rangeSum n (fun v => sumEnv rest f (updEnv e ch v))

/-- Keeps the first occurrence of each label in a (label, length) list. -/
def dedupKeys : List (Char × Nat) → List (Char × Nat)
  | [] => []
  | p :: rest => p :: dedupKeys (rest.filter (fun q => q.1 ≠ p.1))
termination_by l => l.length
decreasing_by
  simpa using Nat.lt_succ_of_le (List.length_filter_le _ _)

/-- The (label, edge length) signature of a view in a store. -/
def viewSig (v : IdxT) (st : Store) : List (Char × Nat) :=
  v.idx.zip (st.mem v.parent).lens

/-- Modelled from the spec: `CTF_Tensor::sum` (declared with its contract
at src/src/interface/ctf_tensor.h, lines 254-269; body not among the
provided files): `B[idx_B] = beta*B[idx_B] + alpha*A[idx_A]`, labels of
`A` absent from `B`'s map being summed over. -/
def sumData (alpha : Int) (A : TensorVal) (idxA : List Char) (beta : Int)
    (B : TensorVal) (idxB : List Char) : TensorVal where
  lens := B.lens
  data := fun c =>
    beta * B.data c +
      alpha * sumEnv ((idxA.zip A.lens).filter (fun p => !(idxB.contains p.1)))
        (fun e => A.data (idxA.map e)) (envOf idxB c)

/-- Modelled from the spec: `CTF_Tensor::contract` (declared with its
contract at src/src/interface/ctf_tensor.h, lines 206-225):
`C[idx_C] = beta*C[idx_C] + alpha*A[idx_A]*B[idx_B]`, labels absent from
`C`'s map being summed over (each shared label once). -/
def contractData (alpha : Int) (A : TensorVal) (idxA : List Char)
    (B : TensorVal) (idxB : List Char) (beta : Int)
    (Cv : TensorVal) (idxC : List Char) : TensorVal where
  lens := Cv.lens
  data := fun c =>
    beta * Cv.data c +
      alpha * sumEnv
        (dedupKeys (((idxA.zip A.lens) ++ (idxB.zip B.lens)).filter
          (fun p => !(idxC.contains p.1))))
        (fun e => A.data (idxA.map e) * B.data (idxB.map e)) (envOf idxC c)

/-- One invocation of `Tensor::sum` with a destination view supplying beta
and the destination index map, mutating the destination tensor in place. -/
def applySum (alpha : Int) (src : IdxT) (D : IdxT) (st : Store) : Store :=
  { st with
    mem := updMem st.mem D.parent
      (sumData alpha (st.mem src.parent) src.idx D.scale (st.mem D.parent) D.idx) }

/-- One invocation of `Tensor::contract` with a destination view supplying
beta and the destination index map. -/
def applyContract (alpha : Int) (sA sB : IdxT) (D : IdxT) (st : Store) : Store :=
  { st with
    mem := updMem st.mem D.parent
      (contractData alpha (st.mem sA.parent) sA.idx (st.mem sB.parent) sB.idx
        D.scale (st.mem D.parent) D.idx) }

/-- The free (label, length) signature a term's result carries: a leaf
contributes its view's signature; a Sum's children share a destination, so
the first child's signature stands for the node; a Contract keeps the
labels appearing in exactly one child, left survivors first, mirroring
`get_intermediate`. -/
def freeSig : Term → Store → List (Char × Nat)
  | .leaf v, st => viewSig v st
  | .sum _ a _, st => freeSig a st
  | .contract _ l r, st =>
      let sl := freeSig l st
      let sr := freeSig r st
      sl.filter (fun p => !((sr.map Prod.fst).contains p.1)) ++
        sr.filter (fun p => !((sl.map Prod.fst).contains p.1))

mutual

/-- Modelled from the spec: `Term.execute(destination)` (section 4.2; the
Sum/Contract bodies are not among the provided files), with the leaf case
taken from `tCTF_Idx_Tensor::execute` (part_000, lines 158-162).  `m` is
the multiplier accumulated from enclosing top-level scales (1 at the
root).  A leaf issues exactly one `Tensor::sum` with alpha the leaf's
scale and beta the destination view's scale.  A Sum executes its children
in order against the same destination, the first child honouring the
destination's beta and every later child accumulating with beta 1.  A
Contract turns each child into a tensor operand (`mkOperand`) and issues
one `Tensor::contract`, folding the operands' scales into alpha.  Returns
the updated store and the list of primitive calls issued. -/
def go : Int → Term → IdxT → Store → Store × List PrimCall
  | m, .leaf v, D, st =>
      (applySum (m * v.scale) v D st,
        [PrimCall.sum D.parent (m * v.scale) v.parent v.idx D.scale D.idx])
  | m, .sum sc a b, D, st =>
      let r1 := go (m * sc) a D st
      let r2 := go (m * sc) b { D with scale := 1 } r1.1
      (r2.1, r1.2 ++ r2.2)
  | m, .contract sc l r, D, st =>
      let ra := mkOperand l st
      let rb := mkOperand r ra.2.1
      (applyContract (m * sc * ra.1.scale * rb.1.scale) ra.1 rb.1 D rb.2.1,
        ra.2.2 ++ rb.2.2 ++
          [PrimCall.contract D.parent (m * sc * ra.1.scale * rb.1.scale)
            ra.1.parent ra.1.idx rb.1.parent rb.1.idx D.scale D.idx])
termination_by m t D st => (sizeOf t, 0)
decreasing_by all_goals simp_wf <;> omega

/-- Modelled from the spec: turns a contraction child into a tensor
operand (section 4.2).  A leaf is its own operand; a non-leaf child is
first materialised into a fresh private intermediate carrying the child's
free label set, executed with the child's own scale and beta 0, and then
wrapped as a scale-1 leaf. -/
def mkOperand : Term → Store → IdxT × Store × List PrimCall
  | .leaf v, st => (v, st, [])
  | t, st =>
      let sig := freeSig t st
      let iid := st.next
      let st1 : Store :=
        { mem := updMem st.mem iid { lens := sig.map Prod.snd, data := fun _ => 0 },
          next := st.next + 1 }
      let r := go 1 t { parent := iid, idx := sig.map Prod.fst, scale := 0 } st1
      ({ parent := iid, idx := sig.map Prod.fst, scale := 1 }, r.1, r.2)
termination_by t st => (sizeOf t, 1)
decreasing_by all_goals simp_wf <;> omega

end

/-- `Term.execute(destination)`: the engine's entry point. -/
def execute (t : Term) (D : IdxT) (st : Store) : Store × List PrimCall :=
  go 1 t D st

/-- `tCTF_Idx_Tensor::operator=` (part_000, lines 133-137): sets the
destination view's scale (the execution beta) to 0 and forwards to the
term's execute.  Returns the updated store and the destination view as the
operator leaves it. -/
def assign (C : IdxT) (B : Term) (st : Store) : Store × IdxT :=
  let C' : IdxT := { C with scale := 0 }
  ((go 1 B C' st).1, C')

/-- `tCTF_Idx_Tensor::operator+=` (part_000, lines 139-143): sets the
destination view's scale to 1 and forwards to the term's execute. -/
def plusAssign (C : IdxT) (B : Term) (st : Store) : Store × IdxT :=
  let C' : IdxT := { C with scale := 1 }
  ((go 1 B C' st).1, C')

/-- `tCTF_Idx_Tensor::operator-=` (part_000, lines 145-150): sets the
destination view's scale to 1, negates the term's top-level scale, and
forwards to the term's execute. -/
def minusAssign (C : IdxT) (B : Term) (st : Store) : Store × IdxT :=
  let C' : IdxT := { C with scale := 1 }
  ((go 1 (scaleTerm (-1) B) C' st).1, C')

/-- Modelled from the spec: `operator*(view, term)` (section 4.2; not
among the provided files) builds a Contract node from the view, wrapped as
a leaf, and the term. -/
def mulViewTerm (v : IdxT) (t : Term) : Term :=
  Term.contract 1 (Term.leaf v) t

/-- `tCTF_Idx_Tensor::operator*=` (part_000, lines 152-156): builds the
contraction of the view with the term and reassigns the view to it via
`operator=`. -/
def mulAssign (V : IdxT) (B : Term) (st : Store) : Store × IdxT :=
  assign V (mulViewTerm V B) st

/-- The mathematical (Einstein) value of a term relative to a destination
index map, evaluated on a fixed store: the reference denotation the
executed destination is compared against.  `m` is the multiplier from
enclosing top-level scales.  A leaf contributes its scale times its tensor,
its labels absent from the destination map summed out; a Sum adds its
children's contributions under its scale; a Contract sums the product of
its children's values over every label absent from the destination map. -/
def valueRel : Int → Term → List Char → Store → Coord → Int
  | m, .leaf v, didx, st, c =>
      m * v.scale *
        sumEnv ((viewSig v st).filter (fun p => !(didx.contains p.1)))
          (fun e => (st.mem v.parent).data (v.idx.map e)) (envOf didx c)
  | m, .sum sc a b, didx, st, c =>
      valueRel (m * sc) a didx st c + valueRel (m * sc) b didx st c
  | m, .contract sc l r, didx, st, c =>
      m * sc *
        sumEnv (dedupKeys ((freeSig l st ++ freeSig r st).filter
            (fun p => !(didx.contains p.1))))
          (fun e =>
            valueRel 1 l ((freeSig l st).map Prod.fst) st
                ((freeSig l st).map (fun p => e p.1)) *
              valueRel 1 r ((freeSig r st).map Prod.fst) st
                ((freeSig r st).map (fun p => e p.1)))
          (envOf didx c)

/-! ### Specification predicates for the engine correctness proof -/

/-- Well-formedness of an execution: the destination and every leaf
reference a live tensor, no leaf aliases the destination tensor, and every
leaf's index map has one label per dimension of its tensor (the spec's
IndexedView invariant). -/
def ValidFor (B : Term) (D : IdxT) (st : Store) : Prop :=
  D.parent < st.next ∧
    ∀ v ∈ leaves B, v.parent < st.next ∧ v.parent ≠ D.parent ∧
      v.idx.length = (st.mem v.parent).lens.length

/-- Well-formedness of a contraction operand: every leaf references a live
tensor and has one label per dimension. -/
def OperandValid (B : Term) (st : Store) : Prop :=
  ∀ v ∈ leaves B, v.parent < st.next ∧
    v.idx.length = (st.mem v.parent).lens.length

/-- What one engine step guarantees: only the destination tensor among the
live ones changes, no live identifier is reused, the destination keeps its
shape, and its contents become `beta * old + value of the term`. -/
def GoPost (m : Int) (B : Term) (D : IdxT) (st : Store) : Prop :=
  (∀ j, j < st.next → j ≠ D.parent → (go m B D st).1.mem j = st.mem j) ∧
    st.next ≤ (go m B D st).1.next ∧
    ((go m B D st).1.mem D.parent).lens = (st.mem D.parent).lens ∧
    ∀ c, ((go m B D st).1.mem D.parent).data c =
      D.scale * (st.mem D.parent).data c + valueRel m B D.idx st c

/-- What materialising a contraction operand guarantees: live tensors are
untouched, the operand is live and is a fresh intermediate unless it is one
of the term's own leaves, its signature is the term's free signature, and
its (scale-weighted) contents are the term's value over its free labels. -/
def MkPost (B : Term) (st : Store) : Prop :=
  (∀ j, j < st.next → (mkOperand B st).2.1.mem j = st.mem j) ∧
    st.next ≤ (mkOperand B st).2.1.next ∧
    (mkOperand B st).1.parent < (mkOperand B st).2.1.next ∧
    ((mkOperand B st).1.parent < st.next →
      (mkOperand B st).1.parent ∈ (leaves B).map IdxT.parent) ∧
    (mkOperand B st).1.idx = (freeSig B st).map Prod.fst ∧
    viewSig (mkOperand B st).1 (mkOperand B st).2.1 = freeSig B st ∧
    ∀ e : Char → Nat,
      (mkOperand B st).1.scale *
          ((mkOperand B st).2.1.mem (mkOperand B st).1.parent).data
            ((mkOperand B st).1.idx.map e) =
        valueRel 1 B ((freeSig B st).map Prod.fst) st
          ((freeSig B st).map (fun p => e p.1))

/-! ### The `get_intermediate` shape/symmetry inference

Translated from `get_intermediate` (src/unnamed/part_000, lines 46-77;
present there only as commented-out code, and matching the spec's
section 4.2 description of intermediate inference). -/

/-- The symmetry tags of the source (`NS` = none, `SY` = symmetric,
`AS` = antisymmetric, `SH` = symmetric-hollow). -/
inductive SymT
  | NS | SY | AS | SH
deriving DecidableEq

/-- One operand of `get_intermediate`: the operand view's index map and
its parent tensor's edge lengths and symmetry tags. -/
structure Operand where
  idx : List Char
  len : List Nat
  sym : List SymT
deriving DecidableEq

/-- One dimension of the inferred intermediate: its index label, edge
length and symmetry tag (`idx_C[k]`, `len_C[k]`, `sym_C[k]`). -/
structure Entry where
  lbl : Char
  elen : Nat
  esym : SymT
deriving DecidableEq

/-- Dimension `i` of `X` survives a contraction against the index map `o`:
it is in bounds and its label does not occur in `o`. -/
def survB (X : Operand) (o : List Char) (i : Nat) : Bool :=
  decide (i < X.idx.length) && !(o.contains (X.idx.getD i 'z'))

/-- Appending dimension `i` of `X` to the (reversed) output: the new
dimension enters with tag `NS`; the previously appended dimension's tag is
upgraded to `X.sym[i-1]` when it carries label `X.idx[i-1]` and that tag
is not `NS` (the source's `sym_C[idx-1] = A.parent->sym[i-1]` branch). -/
def placeRev (X : Operand) (i : Nat) (acc : List Entry) : List Entry :=
  match acc with
  | [] => [⟨X.idx.getD i 'z', X.len.getD i 0, .NS⟩]
  | prev :: rest =>
      if 1 ≤ i ∧ prev.lbl = X.idx.getD (i - 1) 'z' ∧
          X.sym.getD (i - 1) .NS ≠ .NS then
        ⟨X.idx.getD i 'z', X.len.getD i 0, .NS⟩ ::
          { prev with esym := X.sym.getD (i - 1) .NS } :: rest
      else ⟨X.idx.getD i 'z', X.len.getD i 0, .NS⟩ :: prev :: rest

/-- One pass of `get_intermediate`: scans the dimensions of `X` from `i`
up, appending every dimension whose label does not occur in `o` to the
reversed output `acc`.  The first argument is fuel; the scan stops by
itself once `i` reaches the rank, so any fuel of at least
`X.idx.length - i` gives the loop's behaviour. -/
def phaseRev (X : Operand) (o : List Char) : Nat → Nat → List Entry → List Entry
  | 0, _, acc => acc
  | fuel + 1, i, acc =>
      if i < X.idx.length then
        if o.contains (X.idx.getD i 'z') then phaseRev X o fuel (i + 1) acc
        else phaseRev X o fuel (i + 1) (placeRev X i acc)
      else acc

/-- `get_intermediate(A, B)` (part_000, lines 46-77): the label, length
and symmetry descriptor of the intermediate tensor for the contraction of
`A` with `B`: `A`'s surviving dimensions first, then `B`'s. -/
def get_intermediate (A B : Operand) : List Entry :=
  (phaseRev B A.idx B.idx.length 0
    (phaseRev A B.idx A.idx.length 0 [])).reverse

/-- The first surviving dimension of `X` at position `i` or later. -/
def fsurv (X : Operand) (o : List Char) (i : Nat) : Option Nat :=
  if i < X.idx.length then
    if survB X o i then some i else fsurv X o (i + 1)
  else none
termination_by X.idx.length - i

/-- The dimension entry the scan produces for surviving dimension `i`: its
tag is `X.sym[i]` when dimension `i+1` also survives and that tag is not
`NS`, and `NS` otherwise. -/
def specEntry (X : Operand) (o : List Char) (i : Nat) : Entry :=
  ⟨X.idx.getD i 'z', X.len.getD i 0,
    if survB X o (i + 1) = true ∧ X.sym.getD i .NS ≠ .NS then
      X.sym.getD i .NS
    else .NS⟩

/-- The entries contributed by the surviving dimensions of `X` at
positions `i` and later, in order. -/
def entsFrom (X : Operand) (o : List Char) (i : Nat) : List Entry :=
  if i < X.idx.length then
    (if survB X o i then [specEntry X o i] else []) ++ entsFrom X o (i + 1)
  else []
termination_by X.idx.length - i

/-- The upgrade the placement of surviving dimension `k` applies to the
most recent entry of the reversed output. -/
def headUpAt (X : Operand) (k : Nat) : List Entry → List Entry
  | [] => []
  | prev :: rest =>
      if 1 ≤ k ∧ prev.lbl = X.idx.getD (k - 1) 'z' ∧
          X.sym.getD (k - 1) .NS ≠ .NS then
        { prev with esym := X.sym.getD (k - 1) .NS } :: rest
      else prev :: rest

/-- The effect the scan from position `i` on has on an already-built
reversed output: its most recent entry is upgraded exactly when the next
surviving dimension `k` carries on a non-`NS` tag from `X.sym[k-1]` whose
label matches that entry. -/
def headUp (X : Operand) (o : List Char) (i : Nat) (acc : List Entry) :
    List Entry :=
  (fsurv X o i).elim acc (fun k => headUpAt X k acc)

/-! ### The sparse coordinate view -/

/-- Modelled from the spec: `CTF_Sparse_Tensor::write` (declared with its
contract at src/src/interface/ctf_tensor.h, lines 658-667; body not among
the provided files): for every stored coordinate key in order,
`parent[key_j] = beta*parent[key_j] + alpha*values[j]`.  The parent tensor
is modelled by its flat contents, a function from global index. -/
def sparseWrite (alpha : Int) (keys : List Nat) (vals : List Int)
    (beta : Int) (t : Nat → Int) : Nat → Int :=
  match keys, vals with
  | k :: ks, v :: vs =>
      sparseWrite alpha ks vs beta
        (fun i => if i = k then beta * t k + alpha * v else t i)
  | _, _ => t

/-- Modelled from the spec: `CTF_Sparse_Tensor::read` (ctf_tensor.h,
lines 677-686; body not among the provided files): for every stored
coordinate key in order, `values[j] = alpha*parent[key_j] + beta*values[j]`. -/
def sparseRead (alpha : Int) (keys : List Nat) (vals : List Int)
    (beta : Int) (t : Nat → Int) : List Int :=
  match keys, vals with
  | k :: ks, v :: vs => (alpha * t k + beta * v) :: sparseRead alpha ks vs beta t
  | _, _ => []

/-! ### The view constructor -/

/-- The characteristics of a `CTF_Tensor` as the constructor model needs
them: rank, edge lengths, symmetry descriptor and contents. -/
structure TsrMeta where
  ndim : Nat
  len : List Nat
  sym : List SymT
  dat : List Int
deriving DecidableEq

/-- `CTF_Tensor`'s copy constructor with `copy = true`
(src/src/interface/ctf_tensor.h, lines 56-62): a new tensor with the same
rank, lengths, symmetry and data as `A`. -/
def tensorCopy (A : TsrMeta) : TsrMeta := A

/-- The view the `tCTF_Idx_Tensor` constructor produces: whether it
exclusively owns a private copy of its parent, the referenced tensor
value, the copied index map, the intermediate flag and the scale. -/
structure IdxView where
  ownsCopy : Bool
  parentVal : TsrMeta
  idx_map : List Char
  is_intm : Bool
  scale : Int
deriving DecidableEq

/-- The `tCTF_Idx_Tensor` constructor (src/unnamed/part_000, lines
87-101).  No length check is made: `memcpy(idx_map, idx_map_,
parent->ndim*sizeof(char))` copies exactly `parent->ndim` characters
whatever the argument's length (an argument shorter than `ndim` reads out
of bounds in the C++; the model is faithful for arguments of length at
least `ndim`).  In the copy branch the source dereferences the member
`parent` before ever assigning it (`parent = new
tCTF_Tensor<dtype>(*parent,1)`, line 92, where `parent` is the member and
`parent_` the argument); `garbage` stands for whatever that member
happens to hold, and the branch's result is built from it, not from
`parent_`. -/
def mkIdxView (garbage : TsrMeta) (parent_ : TsrMeta) (idx_map_ : List Char)
    (copy : Bool) : IdxView :=
  if copy then
    let p := tensorCopy garbage
    { ownsCopy := true, parentVal := p, idx_map := idx_map_.take p.ndim,
      is_intm := false, scale := 1 }
  else
    { ownsCopy := false, parentVal := parent_,
      idx_map := idx_map_.take parent_.ndim, is_intm := false, scale := 1 }

/-! ### Concrete instances used by counterexamples and witnesses -/

/-- A store of two live scalar tensors with contents 1 (id 0) and 2 (id 1). -/
def cexStore : Store := ⟨fun j => ⟨[], fun _ => if j = 0 then 1 else 2⟩, 2⟩

/-- A two-child Sum whose second leaf reads the destination tensor (id 0). -/
def cexTermAssign : Term := .sum 1 (.leaf ⟨1, [], 1⟩) (.leaf ⟨0, [], 1⟩)

/-- A two-child Sum both of whose leaves read the destination tensor. -/
def cexTermAccum : Term := .sum 1 (.leaf ⟨0, [], 1⟩) (.leaf ⟨0, [], 1⟩)

/-- A store of two live scalar tensors with contents 3 (id 0) and 4 (id 1). -/
def wStore : Store := ⟨fun j => ⟨[], fun _ => if j = 0 then 3 else 4⟩, 2⟩

/-- A scalar leaf over tensor 1 with scale 2. -/
def wLeafT : Term := .leaf ⟨1, [], 2⟩

/-- An operand with a three-dimensional symmetric run `SY, SY, NS` and
labels `a b c`. -/
def cexA : Operand := ⟨['a', 'b', 'c'], [2, 2, 2], [.SY, .SY, .NS]⟩

/-- A one-dimensional operand with label `a`. -/
def cexB : Operand := ⟨['a'], [2], [.NS]⟩

/-- An operand with one adjacent symmetric pair `SY, NS` and labels `a b`. -/
def wOpA : Operand := ⟨['a', 'b'], [2, 3], [.SY, .NS]⟩

/-- A one-dimensional operand with label `b`. -/
def wOpB : Operand := ⟨['b'], [3], [.NS]⟩

/-- A rank-2 tensor. -/
def wT2 : TsrMeta := ⟨2, [2, 3], [.NS, .NS], [0, 0, 0, 0, 0, 0]⟩

/-- Another rank-2 tensor with different characteristics. -/
def wT2b : TsrMeta := ⟨2, [4, 4], [.NS, .NS], [1]⟩

/-- A stand-in for the garbage the uninitialized member may hold. -/
def wGarbage : TsrMeta := ⟨1, [9], [.NS], [5]⟩

/-! ## Theorems -/

/-- C1: executing a leaf view `L` against a destination `D` performs
exactly one primitive call, `D.parent.sum(L.scale, L.parent, L.idx_map,
D.scale, D.idx_map)`, and nothing else, and the destination's resulting
state is exactly that of a direct invocation of `Tensor::sum` with those
same arguments. -/
theorem leaf_execute_single_sum (L D : IdxT) (st : Store)
    (hL : L.parent < st.next) (hD : D.parent < st.next) :
    execute (Term.leaf L) D st =
      (applySum L.scale L D st,
        [PrimCall.sum D.parent L.scale L.parent L.idx D.scale D.idx]) := by
  simp [execute, go]

/-- The single-sum theorem at a concrete leaf and destination: source
tensor 1 with scale 3, destination tensor 0 with beta 2. -/
theorem leaf_execute_single_sum_check :
    execute (Term.leaf ⟨1, [], 3⟩) ⟨0, [], 2⟩ wStore =
      (applySum 3 ⟨1, [], 3⟩ ⟨0, [], 2⟩ wStore, [PrimCall.sum 0 3 1 [] 2 []]) :=
  leaf_execute_single_sum ⟨1, [], 3⟩ ⟨0, [], 2⟩ wStore (by decide) (by decide)

/-- C5: `V *= t` builds a Contract node from a leaf wrapping `V`'s prior
value (prior index map and prior scale) and `t`, and assigns it to `V` via
`operator=`; the two formulations are one and the same computation, so
they produce the same final store. -/
theorem mulAssign_is_contract_assign (V : IdxT) (B : Term) (st : Store) :
    mulAssign V B st = assign V (Term.contract 1 (Term.leaf V) B) st ∧
      mulViewTerm V B = Term.contract 1 (Term.leaf V) B :=
  ⟨rfl, rfl⟩

/-- C10: after `C = t` the destination view's scale field is 0, and after
`C += t` or `C -= t` it is 1, whatever it was before; the operators never
restore the prior scale, so the view returned by `operator=` thereafter
contributes as a source leaf with scale 0 (its value as a term is 0). -/
theorem operators_overwrite_scale (C : IdxT) (B : Term) (st : Store)
    (didx : List Char) (st' : Store) (c : Coord) :
    (assign C B st).2.scale = 0 ∧ (plusAssign C B st).2.scale = 1 ∧
      (minusAssign C B st).2.scale = 1 ∧
      valueRel 1 (Term.leaf (assign C B st).2) didx st' c = 0 := by
  refine ⟨rfl, rfl, rfl, ?_⟩
  simp [valueRel, assign]

/-- C9: in copy mode the constructor builds the view's parent from the
uninitialized member `parent`, not from the tensor argument: the result is
the same for two different argument tensors, it equals a copy of whatever
garbage the member held, and it is not a copy of the argument. -/
theorem copy_ctor_ignores_argument :
    mkIdxView wGarbage wT2 ['a', 'b'] true = mkIdxView wGarbage wT2b ['a', 'b'] true ∧
      wT2 ≠ wT2b ∧
      (mkIdxView wGarbage wT2 ['a', 'b'] true).parentVal = tensorCopy wGarbage ∧
      (mkIdxView wGarbage wT2 ['a', 'b'] true).parentVal ≠ tensorCopy wT2 := by
  exact ⟨rfl, by decide, rfl, by decide⟩

/-- C8 counterexample: constructing a view over the rank-2 tensor `wT2`
with the length-3 index string "abc" does not fail: it returns a
well-formed borrowed view whose index map is the first two characters,
even though the string length differs from the tensor's rank. -/
theorem ctor_wrong_length_no_failure :
    mkIdxView wGarbage wT2 ['a', 'b', 'c'] false =
      { ownsCopy := false, parentVal := wT2, idx_map := ['a', 'b'],
        is_intm := false, scale := 1 } ∧
      (['a', 'b', 'c'] : List Char).length ≠ wT2.ndim := by
  exact ⟨by decide, by decide⟩

/-- C8 (amended): the constructor performs no length validation and never
signals ShapeMismatch: for any index string of length at least the
tensor's rank it succeeds, the view's index map being the first `ndim`
characters of the string; when the length is exactly `ndim` the index map
equals the string. -/
theorem ctor_truncates_no_check (g T : TsrMeta) (s : List Char)
    (h : T.ndim ≤ s.length) :
    (mkIdxView g T s false).idx_map = s.take T.ndim ∧
      (mkIdxView g T s false).parentVal = T ∧
      (mkIdxView g T s false).ownsCopy = false ∧
      (mkIdxView g T s false).scale = 1 ∧
      (s.length = T.ndim → (mkIdxView g T s false).idx_map = s) := by
  refine ⟨rfl, rfl, rfl, rfl, fun hs => ?_⟩
  show s.take T.ndim = s
  rw [← hs, List.take_length]

/-- The no-length-check theorem at a concrete input: rank-2 tensor,
length-3 index string. -/
theorem ctor_truncates_no_check_check :
    (mkIdxView wGarbage wT2 ['a', 'b', 'c'] false).idx_map =
        (['a', 'b', 'c'] : List Char).take wT2.ndim ∧
      (mkIdxView wGarbage wT2 ['a', 'b', 'c'] false).parentVal = wT2 ∧
      (mkIdxView wGarbage wT2 ['a', 'b', 'c'] false).ownsCopy = false ∧
      (mkIdxView wGarbage wT2 ['a', 'b', 'c'] false).scale = 1 ∧
      ((['a', 'b', 'c'] : List Char).length = wT2.ndim →
        (mkIdxView wGarbage wT2 ['a', 'b', 'c'] false).idx_map = ['a', 'b', 'c']) :=
  ctor_truncates_no_check wGarbage wT2 ['a', 'b', 'c'] (by decide)

/-- C7 counterexample: with duplicate coordinate keys the write/read
round-trip does not return the written values: writing `[5, 7]` at keys
`[0, 0]` with alpha 1, beta 0 and reading back gives `[7, 7]`. -/
theorem sparse_roundtrip_duplicate_keys :
    sparseRead 1 [0, 0] [0, 0] 0 (sparseWrite 1 [0, 0] [5, 7] 0 (fun _ => 0)) =
        [7, 7] ∧
      ([7, 7] : List Int) ≠ [5, 7] := by
  exact ⟨by decide, by decide⟩

/-- Writing at keys not containing `k` leaves the tensor's value at `k`
unchanged. -/
theorem sparseWrite_not_mem (alpha beta : Int) (keys : List Nat)
    (vals : List Int) (t : Nat → Int) (k : Nat) (hk : k ∉ keys) :
    sparseWrite alpha keys vals beta t k = t k := by
  induction keys generalizing vals t with
  | nil => rfl
  | cons j js ih =>
    cases vals with
    | nil => rfl
    | cons v vs =>
      have hkj : k ≠ j := fun h => hk (h ▸ List.mem_cons_self j js)
      have hkjs : k ∉ js := fun h => hk (List.mem_cons_of_mem j h)
      rw [sparseWrite, ih _ _ hkjs]
      simp [hkj]

/-- C7 (amended): provided the coordinate keys are pairwise distinct,
`write(alpha=1, v, beta=0)` sets `tensor[key_j] = 0*tensor[key_j] +
1*v[j]` for each `j` in order, and an immediately following
`read(alpha=1, out, beta=0)` on the same keys computes
`out[j] = 1*tensor[key_j] + 0*out[j]`, returning exactly the written
values. -/
theorem sparse_roundtrip (keys : List Nat) (vals out : List Int)
    (t : Nat → Int) (hnd : keys.Nodup) (hlen : vals.length = keys.length)
    (holen : out.length = keys.length) :
    sparseRead 1 keys out 0 (sparseWrite 1 keys vals 0 t) = vals := by
  induction keys generalizing vals out t with
  | nil =>
    cases vals with
    | nil => cases out <;> rfl
    | cons v vs => exact absurd hlen (by simp)
  | cons k ks ih =>
    cases vals with
    | nil => exact absurd hlen (by simp)
    | cons v vs =>
      cases out with
      | nil => exact absurd holen (by simp)
      | cons o os =>
        have hknd : k ∉ ks := (List.nodup_cons.mp hnd).1
        rw [sparseWrite, sparseRead]
        rw [sparseWrite_not_mem _ _ _ _ _ _ hknd]
        have hh : (1 : Int) * (if k = k then 0 * t k + 1 * v else t k) + 0 * o = v := by
          simp
        rw [hh]
        congr 1
        exact ih vs os _ (List.nodup_cons.mp hnd).2 (by simpa using hlen)
          (by simpa using holen)

/-- The sparse round-trip theorem at concrete distinct keys `[3, 5]` and
values `[5, 7]`. -/
theorem sparse_roundtrip_check :
    sparseRead 1 [3, 5] [0, 0] 0 (sparseWrite 1 [3, 5] [5, 7] 0 (fun _ => 1)) =
      [5, 7] :=
  sparse_roundtrip [3, 5] [5, 7] [0, 0] (fun _ => 1) (by decide) (by decide)
    (by decide)

/-! ### Helper lemmas for the engine correctness proof -/

theorem rangeSum_mul (n : Nat) (k : Int) (f : Nat → Int) :
    rangeSum n (fun v => k * f v) = k * rangeSum n f := by
  have h : ∀ l : List Nat, (l.map fun v => k * f v).sum = k * (l.map f).sum := by
    intro l
    induction l with
    | nil => simp
    | cons a t iht => simp [iht, mul_add]
  exact h _

theorem sumEnv_congr (L : List (Char × Nat)) (f g : (Char → Nat) → Int)
    (e : Char → Nat) (h : ∀ e', f e' = g e') : sumEnv L f e = sumEnv L g e := by
  induction L generalizing e with
  | nil => exact h e
  | cons p t ih =>
    obtain ⟨ch, n⟩ := p
    simp only [sumEnv]
    congr 1
    funext v
    exact ih _

theorem sumEnv_mul (L : List (Char × Nat)) (k : Int) (f : (Char → Nat) → Int)
    (e : Char → Nat) : sumEnv L (fun e' => k * f e') e = k * sumEnv L f e := by
  induction L generalizing e with
  | nil => rfl
  | cons p t ih =>
    obtain ⟨ch, n⟩ := p
    simp only [sumEnv]
    rw [← rangeSum_mul]
    congr 1
    funext v
    exact ih _

theorem envOf_map_self (l : List Char) (e : Char → Nat) (ch : Char)
    (h : ch ∈ l) : envOf l (l.map e) ch = e ch := by
  induction l with
  | nil => simp at h
  | cons a t ih =>
    simp only [List.map_cons, envOf, List.zip_cons_cons]
    by_cases hac : a = ch
    · rw [List.find?_cons_of_pos _ (by simp [hac])]
      simp [hac]
    · rw [List.find?_cons_of_neg _ (by simp [hac])]
      have h2 : ch ∈ t := by
        rcases List.mem_cons.mp h with h1 | h2
        · exact absurd h1.symm hac
        · exact h2
      have h3 := ih h2
      simp only [envOf] at h3
      exact h3

theorem map_envOf_map_self (l l' : List Char) (e : Char → Nat)
    (hsub : ∀ ch ∈ l', ch ∈ l) :
    l'.map (envOf l (l.map e)) = l'.map e :=
  List.map_congr_left fun ch hch => envOf_map_self l e ch (hsub ch hch)

theorem viewSig_congr (v : IdxT) (st1 st2 : Store)
    (h : st1.mem v.parent = st2.mem v.parent) : viewSig v st1 = viewSig v st2 := by
  simp [viewSig, h]

theorem freeSig_congr (B : Term) (st1 st2 : Store)
    (h : ∀ v ∈ leaves B, st1.mem v.parent = st2.mem v.parent) :
    freeSig B st1 = freeSig B st2 := by
  induction B with
  | leaf v => exact viewSig_congr v _ _ (h v (by simp [leaves]))
  | sum sc a b iha ihb =>
    exact iha fun v hv => h v (by simp [leaves, hv])
  | contract sc l r ihl ihr =>
    have h1 := ihl fun v hv => h v (by simp [leaves, hv])
    have h2 := ihr fun v hv => h v (by simp [leaves, hv])
    simp only [freeSig, h1, h2]

theorem valueRel_congr (B : Term) (st1 st2 : Store)
    (h : ∀ v ∈ leaves B, st1.mem v.parent = st2.mem v.parent) :
    ∀ m didx c, valueRel m B didx st1 c = valueRel m B didx st2 c := by
  induction B with
  | leaf v =>
    intro m didx c
    have hv := h v (by simp [leaves])
    simp [valueRel, viewSig, hv]
  | sum sc a b iha ihb =>
    intro m didx c
    simp only [valueRel]
    rw [iha (fun v hv => h v (by simp [leaves, hv])),
      ihb (fun v hv => h v (by simp [leaves, hv]))]
  | contract sc l r ihl ihr =>
    intro m didx c
    have hfl : freeSig l st1 = freeSig l st2 :=
      freeSig_congr l st1 st2 fun v hv => h v (by simp [leaves, hv])
    have hfr : freeSig r st1 = freeSig r st2 :=
      freeSig_congr r st1 st2 fun v hv => h v (by simp [leaves, hv])
    simp only [valueRel, hfl, hfr]
    congr 1
    apply sumEnv_congr
    intro e'
    rw [ihl (fun v hv => h v (by simp [leaves, hv])),
      ihr (fun v hv => h v (by simp [leaves, hv]))]

theorem valueRel_smul (B : Term) :
    ∀ (m : Int) (didx : List Char) (st : Store) (c : Coord),
      valueRel m B didx st c = m * valueRel 1 B didx st c := by
  induction B with
  | leaf v =>
    intro m didx st c
    simp only [valueRel]
    ring
  | sum sc a b iha ihb =>
    intro m didx st c
    simp only [valueRel]
    rw [iha (m * sc), ihb (m * sc), iha (1 * sc), ihb (1 * sc)]
    ring
  | contract sc l r ihl ihr =>
    intro m didx st c
    simp only [valueRel]
    ring

theorem valueRel_scaleTerm (f : Int) (B : Term) (m : Int) (didx : List Char)
    (st : Store) (c : Coord) :
    valueRel m (scaleTerm f B) didx st c = f * valueRel m B didx st c := by
  cases B with
  | leaf v =>
    simp only [scaleTerm, valueRel, viewSig]
    ring
  | sum sc a b =>
    simp only [scaleTerm, valueRel]
    rw [valueRel_smul a (m * (f * sc)), valueRel_smul b (m * (f * sc)),
      valueRel_smul a (m * sc), valueRel_smul b (m * sc)]
    ring
  | contract sc l r =>
    simp only [scaleTerm, valueRel]
    ring

theorem validFor_scaleTerm (f : Int) (B : Term) (D : IdxT) (st : Store)
    (h : ValidFor B D st) : ValidFor (scaleTerm f B) D st := by
  obtain ⟨hD, hl⟩ := h
  refine ⟨hD, ?_⟩
  cases B with
  | leaf v =>
    intro w hw
    simp only [scaleTerm, leaves, List.mem_singleton] at hw
    subst hw
    exact hl v (by simp [leaves])
  | sum sc a b =>
    intro w hw
    exact hl w (by simpa [scaleTerm, leaves] using hw)
  | contract sc l r =>
    intro w hw
    exact hl w (by simpa [scaleTerm, leaves] using hw)

theorem zipFstSnd {α β : Type} (l : List (α × β)) :
    (l.map Prod.fst).zip (l.map Prod.snd) = l := by
  simpa using List.zip_map' Prod.fst Prod.snd l

/-- Materialisation postconditions for a non-leaf contraction operand,
stated against the unfolded shape of `mkOperand`. -/
theorem mat_post (B : Term) (st : Store) (hv : OperandValid B st)
    (IH : ∀ m D st', ValidFor B D st' → GoPost m B D st')
    (hop : (mkOperand B st).1 = ⟨st.next, (freeSig B st).map Prod.fst, 1⟩)
    (hrest : (mkOperand B st).2 =
      go 1 B ⟨st.next, (freeSig B st).map Prod.fst, 0⟩
        ⟨updMem st.mem st.next ⟨(freeSig B st).map Prod.snd, fun _ => 0⟩,
          st.next + 1⟩) :
    MkPost B st := by
  have hst21 : (mkOperand B st).2.1 =
      (go 1 B ⟨st.next, (freeSig B st).map Prod.fst, 0⟩
        ⟨updMem st.mem st.next ⟨(freeSig B st).map Prod.snd, fun _ => 0⟩,
          st.next + 1⟩).1 := by rw [hrest]
  have hvf : ValidFor B ⟨st.next, (freeSig B st).map Prod.fst, 0⟩
      ⟨updMem st.mem st.next ⟨(freeSig B st).map Prod.snd, fun _ => 0⟩,
        st.next + 1⟩ := by
    refine ⟨by show st.next < st.next + 1; omega, ?_⟩
    intro v hv'
    obtain ⟨h1, h2⟩ := hv v hv'
    refine ⟨by show v.parent < st.next + 1; omega,
      by show v.parent ≠ st.next; omega, ?_⟩
    show v.idx.length = ((updMem st.mem st.next _ v.parent).lens).length
    rw [updMem, if_neg (by omega)]
    exact h2
  have P := IH 1 ⟨st.next, (freeSig B st).map Prod.fst, 0⟩
    ⟨updMem st.mem st.next ⟨(freeSig B st).map Prod.snd, fun _ => 0⟩,
      st.next + 1⟩ hvf
  obtain ⟨Pf, Pn, Pl, Pd⟩ := P
  have hmemleaves : ∀ v ∈ leaves B,
      (Store.mk (updMem st.mem st.next ⟨(freeSig B st).map Prod.snd, fun _ => 0⟩)
        (st.next + 1)).mem v.parent = st.mem v.parent := by
    intro v hv'
    obtain ⟨h1, _⟩ := hv v hv'
    show updMem st.mem st.next _ v.parent = st.mem v.parent
    rw [updMem, if_neg (by omega)]
  refine ⟨?_, ?_, ?_, ?_, ?_, ?_, ?_⟩
  · intro j hj
    rw [hst21, Pf j (by simpa using by omega) (by simpa using by omega)]
    show updMem st.mem st.next _ j = st.mem j
    rw [updMem, if_neg (by omega)]
  · rw [hst21]
    calc st.next ≤ st.next + 1 := by omega
      _ ≤ _ := by simpa using Pn
  · rw [hop, hst21]
    show st.next < _
    calc st.next < st.next + 1 := by omega
      _ ≤ _ := by simpa using Pn
  · rw [hop]
    intro h
    exact absurd h (lt_irrefl _)
  · rw [hop]
  · rw [hop, hst21]
    show ((freeSig B st).map Prod.fst).zip
        ((((go 1 B _ _).1.mem st.next)).lens) = freeSig B st
    have hl : (((go 1 B ⟨st.next, (freeSig B st).map Prod.fst, 0⟩
        ⟨updMem st.mem st.next ⟨(freeSig B st).map Prod.snd, fun _ => 0⟩,
          st.next + 1⟩).1.mem st.next)).lens = (freeSig B st).map Prod.snd := by
      have := Pl
      simp only at this
      rw [this]
      show (updMem st.mem st.next ⟨(freeSig B st).map Prod.snd, fun _ => 0⟩ st.next).lens = _
      rw [updMem, if_pos rfl]
    rw [hl, zipFstSnd]
  · intro e
    rw [hop, hst21]
    show (1 : Int) * ((go 1 B _ _).1.mem st.next).data
        (((freeSig B st).map Prod.fst).map e) = _
    rw [one_mul]
    have hd := Pd (((freeSig B st).map Prod.fst).map e)
    simp only at hd
    rw [hd]
    have hz : (updMem st.mem st.next ⟨(freeSig B st).map Prod.snd, fun _ => 0⟩
        st.next).data (((freeSig B st).map Prod.fst).map e) = 0 := by
      rw [updMem, if_pos rfl]
    rw [hz, mul_zero, zero_add]
    rw [valueRel_congr B _ st hmemleaves]
    congr 1
    rw [List.map_map]
    rfl

/-- Turning a contraction child into an operand satisfies `MkPost`. -/
theorem mkOperand_post (B : Term) (st : Store) (hv : OperandValid B st)
    (IH : ∀ m D st', ValidFor B D st' → GoPost m B D st') : MkPost B st := by
  cases B with
  | leaf v =>
    obtain ⟨hlt, hlen⟩ := hv v (by simp [leaves])
    have hmk : mkOperand (.leaf v) st = (v, st, []) := by simp [mkOperand]
    have hfst : (viewSig v st).map Prod.fst = v.idx :=
      List.map_fst_zip _ _ (le_of_eq hlen)
    refine ⟨?_, ?_, ?_, ?_, ?_, ?_, ?_⟩
    · intro j hj
      rw [hmk]
    · rw [hmk]
    · rw [hmk]
      exact hlt
    · rw [hmk]
      intro _
      simp [leaves]
    · rw [hmk]
      show v.idx = (freeSig (.leaf v) st).map Prod.fst
      rw [show freeSig (.leaf v) st = viewSig v st from rfl, hfst]
    · rw [hmk]
      rfl
    · intro e
      rw [hmk]
      show v.scale * (st.mem v.parent).data (v.idx.map e) =
        valueRel 1 (.leaf v) ((freeSig (.leaf v) st).map Prod.fst) st
          ((freeSig (.leaf v) st).map fun p => e p.1)
      rw [show freeSig (.leaf v) st = viewSig v st from rfl, hfst]
      have hco : (viewSig v st).map (fun p => e p.1) = v.idx.map e := by
        rw [show (fun (p : Char × Nat) => e p.1) = e ∘ Prod.fst from rfl,
          ← List.map_map, hfst]
      rw [hco]
      simp only [valueRel]
      have hfil : (viewSig v st).filter (fun p => !(v.idx.contains p.1)) = [] := by
        rw [List.filter_eq_nil_iff]
        intro p hp
        obtain ⟨pa, pb⟩ := p
        have hp1 : pa ∈ v.idx := by
          simp only [viewSig] at hp
          exact (List.mem_zip hp).1
        simp [hp1]
      rw [hfil]
      show v.scale * (st.mem v.parent).data (v.idx.map e) =
        1 * v.scale * (st.mem v.parent).data
          (v.idx.map (envOf v.idx (v.idx.map e)))
      rw [map_envOf_map_self v.idx v.idx e (fun ch hch => hch)]
      ring
  | sum sc a b =>
    exact mat_post _ st hv IH (by simp [mkOperand]) (by simp [mkOperand])
  | contract sc l r =>
    exact mat_post _ st hv IH (by simp [mkOperand]) (by simp [mkOperand])

/-- The engine correctness theorem: a well-formed execution touches only
the destination among the live tensors, keeps its shape, and combines its
old contents with the term's value under the destination's beta. -/
theorem go_spec (B : Term) :
    ∀ (m : Int) (D : IdxT) (st : Store), ValidFor B D st → GoPost m B D st := by
  induction B with
  | leaf v =>
    intro m D st hv
    obtain ⟨hD, hl⟩ := hv
    have hgo : (go m (.leaf v) D st).1 = applySum (m * v.scale) v D st := by
      simp [go]
    refine ⟨?_, ?_, ?_, ?_⟩
    · intro j hj hne
      rw [hgo]
      show updMem st.mem D.parent _ j = st.mem j
      rw [updMem, if_neg hne]
    · rw [hgo]
      exact le_refl _
    · rw [hgo]
      show (updMem st.mem D.parent _ D.parent).lens = _
      rw [updMem, if_pos rfl]
      rfl
    · intro c
      rw [hgo]
      show (updMem st.mem D.parent _ D.parent).data c = _
      rw [updMem, if_pos rfl]
      simp only [sumData, valueRel, viewSig]
  | sum sc a b iha ihb =>
    intro m D st hv
    obtain ⟨hD, hl⟩ := hv
    have hva : ValidFor a D st := ⟨hD, fun v hv' => hl v (by simp [leaves, hv'])⟩
    have hvb : ValidFor b D st := ⟨hD, fun v hv' => hl v (by simp [leaves, hv'])⟩
    obtain ⟨P1f, P1n, P1l, P1d⟩ := iha (m * sc) D st hva
    have hvb1 : ValidFor b { D with scale := 1 } (go (m * sc) a D st).1 := by
      refine ⟨lt_of_lt_of_le hD P1n, ?_⟩
      intro v hv'
      obtain ⟨h1, h2, h3⟩ := hl v (by simp [leaves, hv'])
      refine ⟨lt_of_lt_of_le h1 P1n, h2, ?_⟩
      rw [P1f v.parent h1 h2]
      exact h3
    obtain ⟨P2f, P2n, P2l, P2d⟩ := ihb (m * sc) { D with scale := 1 }
      (go (m * sc) a D st).1 hvb1
    have hgo : (go m (.sum sc a b) D st).1 =
        (go (m * sc) b { D with scale := 1 } (go (m * sc) a D st).1).1 := by
      simp [go]
    have hmemb : ∀ v ∈ leaves b,
        ((go (m * sc) a D st).1).mem v.parent = st.mem v.parent := by
      intro v hv'
      obtain ⟨h1, h2, _⟩ := hl v (by simp [leaves, hv'])
      exact P1f v.parent h1 h2
    refine ⟨?_, ?_, ?_, ?_⟩
    · intro j hj hne
      rw [hgo, P2f j (lt_of_lt_of_le hj P1n) hne]
      exact P1f j hj hne
    · rw [hgo]
      exact le_trans P1n P2n
    · rw [hgo]
      have h1 := P2l
      simp only at h1
      rw [h1]
      exact P1l
    · intro c
      rw [hgo]
      have h2 := P2d c
      simp only at h2
      rw [h2, P1d c, valueRel_congr b _ st hmemb]
      simp only [valueRel]
      ring
  | contract sc l r ihl ihr =>
    intro m D st hv
    obtain ⟨hD, hl⟩ := hv
    have hvl : OperandValid l st := by
      intro v hv'
      obtain ⟨h1, _, h3⟩ := hl v (by simp [leaves, hv'])
      exact ⟨h1, h3⟩
    obtain ⟨Ma1, Ma2, Ma3, Ma4, Ma5, Ma6, Ma7⟩ := mkOperand_post l st hvl ihl
    have hvr : OperandValid r (mkOperand l st).2.1 := by
      intro v hv'
      obtain ⟨h1, _, h3⟩ := hl v (by simp [leaves, hv'])
      refine ⟨lt_of_lt_of_le h1 Ma2, ?_⟩
      rw [Ma1 v.parent h1]
      exact h3
    obtain ⟨Mb1, Mb2, Mb3, Mb4, Mb5, Mb6, Mb7⟩ :=
      mkOperand_post r (mkOperand l st).2.1 hvr ihr
    have hAr : ∀ v ∈ leaves r,
        ((mkOperand l st).2.1).mem v.parent = st.mem v.parent := by
      intro v hv'
      exact Ma1 v.parent (hl v (by simp [leaves, hv'])).1
    have hfr : freeSig r (mkOperand l st).2.1 = freeSig r st :=
      freeSig_congr r _ st hAr
    have hDA : ((mkOperand l st).2.1).mem D.parent = st.mem D.parent :=
      Ma1 D.parent hD
    have hDB : ((mkOperand r (mkOperand l st).2.1).2.1).mem D.parent =
        st.mem D.parent := by
      rw [Mb1 D.parent (lt_of_lt_of_le hD Ma2)]
      exact hDA
    have haB : ((mkOperand r (mkOperand l st).2.1).2.1).mem
        (mkOperand l st).1.parent =
        ((mkOperand l st).2.1).mem (mkOperand l st).1.parent :=
      Mb1 (mkOperand l st).1.parent Ma3
    have hsigA : (mkOperand l st).1.idx.zip
        (((mkOperand r (mkOperand l st).2.1).2.1).mem
          (mkOperand l st).1.parent).lens = freeSig l st := by
      have h0 : viewSig (mkOperand l st).1 (mkOperand r (mkOperand l st).2.1).2.1 =
          viewSig (mkOperand l st).1 (mkOperand l st).2.1 :=
        viewSig_congr _ _ _ haB
      simp only [viewSig] at h0
      rw [h0]
      have h1 := Ma6
      simp only [viewSig] at h1
      exact h1
    have hsigB : (mkOperand r (mkOperand l st).2.1).1.idx.zip
        (((mkOperand r (mkOperand l st).2.1).2.1).mem
          (mkOperand r (mkOperand l st).2.1).1.parent).lens = freeSig r st := by
      have h1 := Mb6
      simp only [viewSig] at h1
      rw [h1]
      exact hfr
    have hgo : (go m (.contract sc l r) D st).1 =
        applyContract (m * sc * (mkOperand l st).1.scale *
            (mkOperand r (mkOperand l st).2.1).1.scale)
          (mkOperand l st).1 (mkOperand r (mkOperand l st).2.1).1 D
          (mkOperand r (mkOperand l st).2.1).2.1 := by
      simp [go]
    refine ⟨?_, ?_, ?_, ?_⟩
    · intro j hj hne
      rw [hgo]
      show updMem _ D.parent _ j = st.mem j
      rw [updMem, if_neg hne, Mb1 j (lt_of_lt_of_le hj Ma2), Ma1 j hj]
    · rw [hgo]
      show st.next ≤ ((mkOperand r (mkOperand l st).2.1).2.1).next
      exact le_trans Ma2 Mb2
    · rw [hgo]
      show (updMem _ D.parent _ D.parent).lens = _
      rw [updMem, if_pos rfl]
      show (((mkOperand r (mkOperand l st).2.1).2.1).mem D.parent).lens = _
      rw [hDB]
    · intro c
      rw [hgo]
      show (updMem _ D.parent _ D.parent).data c = _
      rw [updMem, if_pos rfl]
      simp only [contractData]
      rw [hDB, hsigA, hsigB]
      simp only [valueRel]
      congr 1
      have hkey : ∀ e : Char → Nat,
          valueRel 1 l ((freeSig l st).map Prod.fst) st
              ((freeSig l st).map fun p => e p.1) *
            valueRel 1 r ((freeSig r st).map Prod.fst) st
              ((freeSig r st).map fun p => e p.1) =
          ((mkOperand l st).1.scale * (mkOperand r (mkOperand l st).2.1).1.scale) *
            ((((mkOperand r (mkOperand l st).2.1).2.1).mem
                (mkOperand l st).1.parent).data ((mkOperand l st).1.idx.map e) *
              (((mkOperand r (mkOperand l st).2.1).2.1).mem
                (mkOperand r (mkOperand l st).2.1).1.parent).data
                ((mkOperand r (mkOperand l st).2.1).1.idx.map e)) := by
        intro e
        rw [haB]
        rw [← Ma7 e]
        have h2 := Mb7 e
        rw [hfr, valueRel_congr r _ st hAr] at h2
        rw [← h2]
        ring
      rw [sumEnv_congr _ _ _ _ hkey, sumEnv_mul]
      ring

/-- C2 counterexample: for the destination view over tensor 0 and the
two-child Sum `cexTermAssign` whose second leaf reads tensor 0, `C = t`
leaves tensor 0 holding 4, while the value of the term on the prior store
is 3: the destination does not hold the value of the term (the second
child read the first child's output instead of the prior contents). -/
theorem assign_aliased_not_value :
    ((assign ⟨0, [], 5⟩ cexTermAssign cexStore).1.mem 0).data [] = 4 ∧
      valueRel 1 cexTermAssign [] cexStore [] = 3 ∧
      ((assign ⟨0, [], 5⟩ cexTermAssign cexStore).1.mem 0).data [] ≠
        valueRel 1 cexTermAssign [] cexStore [] := by
  refine ⟨?_, by decide, ?_⟩ <;>
    simp [assign, cexTermAssign, cexStore, go, applySum, sumData, sumEnv,
      viewSig, envOf, updMem, valueRel]

/-- C2 (amended): `C = t` sets the execution beta to 0 (overwrite) and
forwards to `t.execute(C)`; provided no leaf of `t` references `C`'s own
tensor and every referenced tensor is live and well-formed, `C`'s tensor
afterwards holds exactly the value of `t`, independently of `C`'s prior
contents (replacing those prior contents does not change the outcome). -/
theorem assign_overwrites (C : IdxT) (B : Term) (st : Store)
    (hv : ValidFor B C st) :
    (assign C B st).2.scale = 0 ∧
      (assign C B st).1 = (execute B { C with scale := 0 } st).1 ∧
      (∀ c, ((assign C B st).1.mem C.parent).data c = valueRel 1 B C.idx st c) ∧
      ∀ d c, ((assign C B { st with mem := updMem st.mem C.parent d }).1.mem
          C.parent).data c = ((assign C B st).1.mem C.parent).data c := by
  obtain ⟨hD, hl⟩ := hv
  obtain ⟨Pf, Pn, Pl, Pd⟩ := go_spec B 1 { C with scale := 0 } st ⟨hD, hl⟩
  refine ⟨rfl, rfl, fun c => ?_, fun d c => ?_⟩
  · have h := Pd c
    simp only at h
    show ((go 1 B { C with scale := 0 } st).1.mem C.parent).data c = _
    rw [h]
    ring
  · have hvd : ValidFor B { C with scale := 0 }
        { st with mem := updMem st.mem C.parent d } := by
      refine ⟨hD, ?_⟩
      intro v hv'
      obtain ⟨h1, h2, h3⟩ := hl v hv'
      refine ⟨h1, h2, ?_⟩
      show v.idx.length = ((updMem st.mem C.parent d) v.parent).lens.length
      rw [updMem, if_neg h2]
      exact h3
    obtain ⟨Qf, Qn, Ql, Qd⟩ :=
      go_spec B 1 { C with scale := 0 } { st with mem := updMem st.mem C.parent d } hvd
    have h1 := Qd c
    have h2 := Pd c
    simp only at h1 h2
    have hcong : valueRel 1 B C.idx
        { st with mem := updMem st.mem C.parent d } c = valueRel 1 B C.idx st c := by
      apply valueRel_congr
      intro v hv'
      show (updMem st.mem C.parent d) v.parent = st.mem v.parent
      rw [updMem, if_neg (hl v hv').2.1]
    show ((go 1 B { C with scale := 0 } { st with mem := updMem st.mem C.parent d }).1.mem
        C.parent).data c = ((go 1 B { C with scale := 0 } st).1.mem C.parent).data c
    rw [h1, h2, hcong]
    ring

/-- The overwrite theorem at a concrete non-aliased input: destination
tensor 0 (prior value 3, prior scale 7), term a scale-2 leaf over tensor 1
(value 4): afterwards tensor 0 holds the term's value. -/
theorem assign_overwrites_check :
    ((assign ⟨0, [], 7⟩ wLeafT wStore).1.mem 0).data [] =
      valueRel 1 wLeafT [] wStore [] :=
  (assign_overwrites ⟨0, [], 7⟩ wLeafT wStore
    ⟨by decide, by decide⟩).2.2.1 []

/-- C3 counterexample: for the destination view over tensor 0 (prior
value 1) and the two-child Sum `cexTermAccum` both of whose leaves read
tensor 0, `C += t` leaves tensor 0 holding 4, while `old(C) + value(t)`
is 3. -/
theorem plusAssign_aliased_not_sum :
    ((plusAssign ⟨0, [], 5⟩ cexTermAccum cexStore).1.mem 0).data [] = 4 ∧
      (cexStore.mem 0).data [] + valueRel 1 cexTermAccum [] cexStore [] = 3 ∧
      ((plusAssign ⟨0, [], 5⟩ cexTermAccum cexStore).1.mem 0).data [] ≠
        (cexStore.mem 0).data [] + valueRel 1 cexTermAccum [] cexStore [] := by
  refine ⟨?_, by decide, ?_⟩ <;>
    simp [plusAssign, cexTermAccum, cexStore, go, applySum, sumData, sumEnv,
      viewSig, envOf, updMem, valueRel]

/-- C3 (amended): `C += t` sets the execution beta to 1 (accumulate) and
forwards to `t.execute(C)`; provided no leaf of `t` references `C`'s own
tensor and every referenced tensor is live and well-formed, `C`'s tensor
afterwards holds `old(C) + value(t)`. -/
theorem plusAssign_accumulates (C : IdxT) (B : Term) (st : Store)
    (hv : ValidFor B C st) :
    (plusAssign C B st).2.scale = 1 ∧
      (plusAssign C B st).1 = (execute B { C with scale := 1 } st).1 ∧
      ∀ c, ((plusAssign C B st).1.mem C.parent).data c =
        (st.mem C.parent).data c + valueRel 1 B C.idx st c := by
  obtain ⟨hD, hl⟩ := hv
  obtain ⟨Pf, Pn, Pl, Pd⟩ := go_spec B 1 { C with scale := 1 } st ⟨hD, hl⟩
  refine ⟨rfl, rfl, fun c => ?_⟩
  have h := Pd c
  simp only at h
  show ((go 1 B { C with scale := 1 } st).1.mem C.parent).data c = _
  rw [h]
  ring

/-- The accumulate theorem at a concrete non-aliased input: destination
tensor 0 (prior value 3), term a scale-2 leaf over tensor 1 (value 4):
afterwards tensor 0 holds 3 + 8. -/
theorem plusAssign_accumulates_check :
    ((plusAssign ⟨0, [], 9⟩ wLeafT wStore).1.mem 0).data [] =
      (wStore.mem 0).data [] + valueRel 1 wLeafT [] wStore [] :=
  (plusAssign_accumulates ⟨0, [], 9⟩ wLeafT wStore
    ⟨by decide, by decide⟩).2.2 []

/-- C4 counterexample: for the destination view over tensor 0 (prior
value 1) and the two-child Sum `cexTermAccum` both of whose leaves read
tensor 0, `C -= t` leaves tensor 0 holding 0, while `old(C) - value(t)`
is -1. -/
theorem minusAssign_aliased_not_diff :
    ((minusAssign ⟨0, [], 5⟩ cexTermAccum cexStore).1.mem 0).data [] = 0 ∧
      (cexStore.mem 0).data [] - valueRel 1 cexTermAccum [] cexStore [] = -1 ∧
      ((minusAssign ⟨0, [], 5⟩ cexTermAccum cexStore).1.mem 0).data [] ≠
        (cexStore.mem 0).data [] - valueRel 1 cexTermAccum [] cexStore [] := by
  refine ⟨?_, by decide, ?_⟩ <;>
    simp [minusAssign, scaleTerm, cexTermAccum, cexStore, go, applySum,
      sumData, sumEnv, viewSig, envOf, updMem, valueRel]

/-- C4 (amended): `C -= t` behaves exactly like `C += t'` where `t'` is
`t` with its top-level scale negated; provided no leaf of `t` references
`C`'s own tensor and every referenced tensor is live and well-formed,
`C`'s tensor afterwards holds `old(C) - value(t)`. -/
theorem minusAssign_subtracts (C : IdxT) (B : Term) (st : Store)
    (hv : ValidFor B C st) :
    minusAssign C B st = plusAssign C (scaleTerm (-1) B) st ∧
      (minusAssign C B st).2.scale = 1 ∧
      ∀ c, ((minusAssign C B st).1.mem C.parent).data c =
        (st.mem C.parent).data c - valueRel 1 B C.idx st c := by
  obtain ⟨hD, hl⟩ := hv
  have hv' : ValidFor (scaleTerm (-1) B) { C with scale := 1 } st :=
    validFor_scaleTerm (-1) B { C with scale := 1 } st ⟨hD, hl⟩
  obtain ⟨Pf, Pn, Pl, Pd⟩ :=
    go_spec (scaleTerm (-1) B) 1 { C with scale := 1 } st hv'
  refine ⟨rfl, rfl, fun c => ?_⟩
  have h := Pd c
  rw [valueRel_scaleTerm] at h
  simp only at h
  show ((go 1 (scaleTerm (-1) B) { C with scale := 1 } st).1.mem C.parent).data c = _
  rw [h]
  ring

/-- The subtract theorem at a concrete non-aliased input: destination
tensor 0 (prior value 3), term a scale-2 leaf over tensor 1 (value 4):
afterwards tensor 0 holds 3 - 8. -/
theorem minusAssign_subtracts_check :
    ((minusAssign ⟨0, [], 9⟩ wLeafT wStore).1.mem 0).data [] =
      (wStore.mem 0).data [] - valueRel 1 wLeafT [] wStore [] :=
  (minusAssign_subtracts ⟨0, [], 9⟩ wLeafT wStore
    ⟨by decide, by decide⟩).2.2 []

/-! ### Characterisation of `get_intermediate` -/

theorem fsurv_unfold (X : Operand) (o : List Char) (i : Nat) :
    fsurv X o i = if i < X.idx.length then
      (if survB X o i then some i else fsurv X o (i + 1)) else none := by
  conv_lhs => unfold fsurv

theorem entsFrom_unfold (X : Operand) (o : List Char) (i : Nat) :
    entsFrom X o i = if i < X.idx.length then
      (if survB X o i then [specEntry X o i] else []) ++ entsFrom X o (i + 1)
    else [] := by
  conv_lhs => unfold entsFrom

theorem survB_lt (X : Operand) (o : List Char) (i : Nat)
    (h : survB X o i = true) : i < X.idx.length := by
  simp [survB] at h
  exact h.1

theorem fsurv_stop (X : Operand) (o : List Char) (i : Nat)
    (h : ¬ i < X.idx.length) : fsurv X o i = none := by
  rw [fsurv_unfold, if_neg h]

theorem fsurv_surv (X : Operand) (o : List Char) (i : Nat)
    (h : survB X o i = true) : fsurv X o i = some i := by
  rw [fsurv_unfold, if_pos (survB_lt X o i h), if_pos h]

theorem fsurv_skip (X : Operand) (o : List Char) (i : Nat)
    (hs : survB X o i = false) : fsurv X o i = fsurv X o (i + 1) := by
  by_cases hi : i < X.idx.length
  · rw [fsurv_unfold, if_pos hi, if_neg (by simp [hs])]
  · rw [fsurv_stop X o i hi, fsurv_stop X o (i + 1) (by omega)]

theorem fsurv_mem (X : Operand) (o : List Char) :
    ∀ n i k, X.idx.length - i ≤ n → fsurv X o i = some k →
      survB X o k = true ∧ i ≤ k := by
  intro n
  induction n with
  | zero =>
    intro i k hn h
    rw [fsurv_stop X o i (by omega)] at h
    cases h
  | succ n ih =>
    intro i k hn h
    by_cases hi : i < X.idx.length
    · by_cases hs : survB X o i = true
      · rw [fsurv_surv X o i hs] at h
        cases h
        exact ⟨hs, le_refl i⟩
      · rw [fsurv_skip X o i (by simpa using hs)] at h
        obtain ⟨a, b⟩ := ih (i + 1) k (by omega) h
        exact ⟨a, by omega⟩
    · rw [fsurv_stop X o i hi] at h
      cases h

theorem nodup_getD_ne (l : List Char) (hnd : l.Nodup) (i j : Nat)
    (hi : i < l.length) (hj : j < l.length) (hne : i ≠ j) :
    l.getD i 'z' ≠ l.getD j 'z' := by
  intro he
  rw [List.getD_eq_getElem _ _ hi, List.getD_eq_getElem _ _ hj] at he
  have hinj := List.nodup_iff_injective_get.mp hnd
  have h2 := hinj (show l.get ⟨i, hi⟩ = l.get ⟨j, hj⟩ by simpa using he)
  exact hne (by simpa using h2)

/-- Appending surviving dimension `i` and continuing the scan from `i+1`
yields the dimension's inferred entry followed by the scan's effect on the
prior output. -/
theorem headUp_place (X : Operand) (o : List Char) (hnd : X.idx.Nodup)
    (i : Nat) (hi : i < X.idx.length) (hsurv : survB X o i = true)
    (acc : List Entry) :
    headUp X o (i + 1) (placeRev X i acc) =
      specEntry X o i :: headUp X o i acc := by
  have hhead : ∀ rest : List Entry,
      headUp X o (i + 1)
          ((⟨X.idx.getD i 'z', X.len.getD i 0, .NS⟩ : Entry) :: rest) =
        specEntry X o i :: rest := by
    intro rest
    by_cases hs1 : survB X o (i + 1) = true
    · simp only [headUp]
      rw [fsurv_surv X o (i + 1) hs1]
      simp only [Option.elim, headUpAt]
      by_cases hsym : X.sym.getD i SymT.NS ≠ SymT.NS
      · rw [if_pos ⟨by omega, by simp, by simpa using hsym⟩]
        simp only [specEntry]
        rw [if_pos ⟨hs1, hsym⟩]
        simp
      · rw [if_neg (fun hcon => hsym (by simpa using hcon.2.2))]
        simp only [specEntry]
        rw [if_neg (fun hcon => hsym hcon.2)]
    · simp only [headUp]
      cases hfs : fsurv X o (i + 1) with
      | none =>
        simp only [Option.elim, specEntry]
        rw [if_neg (fun hcon => hs1 hcon.1)]
      | some k =>
        obtain ⟨hks, hik⟩ := fsurv_mem X o X.idx.length (i + 1) k (by omega) hfs
        have hklen : k < X.idx.length := survB_lt X o k hks
        have hki : k ≠ i + 1 := by
          intro h
          rw [h] at hks
          exact hs1 hks
        have hlbl : X.idx.getD i 'z' ≠ X.idx.getD (k - 1) 'z' :=
          nodup_getD_ne X.idx hnd i (k - 1) hi (by omega) (by omega)
        simp only [Option.elim, headUpAt]
        rw [if_neg (fun hcon => hlbl hcon.2.1)]
        simp only [specEntry]
        rw [if_neg (fun hcon => hs1 hcon.1)]
  cases acc with
  | nil =>
    simp only [placeRev]
    rw [hhead []]
    simp only [headUp, headUpAt]
    cases fsurv X o i <;> rfl
  | cons prev rest =>
    simp only [placeRev]
    have hfsi : fsurv X o i = some i := fsurv_surv X o i hsurv
    by_cases hcond : 1 ≤ i ∧ prev.lbl = X.idx.getD (i - 1) 'z' ∧
        X.sym.getD (i - 1) SymT.NS ≠ SymT.NS
    · rw [if_pos hcond, hhead]
      simp only [headUp]
      rw [hfsi]
      simp only [Option.elim, headUpAt]
      rw [if_pos hcond]
    · rw [if_neg hcond, hhead]
      simp only [headUp]
      rw [hfsi]
      simp only [Option.elim, headUpAt]
      rw [if_neg hcond]

/-- The scan of `X` against `o` from position `i`, on any prior reversed
output, produces the reversed entries of `X`'s surviving dimensions from
`i` on, each tagged as `specEntry` prescribes, ahead of the prior output
with at most its most recent entry upgraded. -/
theorem phaseRev_spec (X : Operand) (o : List Char) (hnd : X.idx.Nodup) :
    ∀ (fuel i : Nat) (acc : List Entry), X.idx.length - i ≤ fuel →
      phaseRev X o fuel i acc = (entsFrom X o i).reverse ++ headUp X o i acc := by
  intro fuel
  induction fuel with
  | zero =>
    intro i acc hn
    have hge : ¬ i < X.idx.length := by omega
    show acc = _
    rw [entsFrom_unfold, if_neg hge]
    simp only [headUp]
    rw [fsurv_stop X o i hge]
    simp
  | succ fuel ih =>
    intro i acc hn
    by_cases hi : i < X.idx.length
    · by_cases hc : o.contains (X.idx.getD i 'z') = true
      · have hstep : phaseRev X o (fuel + 1) i acc = phaseRev X o fuel (i + 1) acc := by
          simp only [phaseRev]
          rw [if_pos hi, if_pos hc]
        have hsurv : survB X o i = false := by
          simp [survB, hi]
          simpa [List.getD_eq_getElem _ _ hi, List.getElem?_eq_getElem hi] using hc
        rw [hstep, ih (i + 1) acc (by omega)]
        have he : entsFrom X o i = entsFrom X o (i + 1) := by
          rw [entsFrom_unfold, if_pos hi, if_neg (by simp [hsurv])]
          simp
        have hh : headUp X o i acc = headUp X o (i + 1) acc := by
          simp only [headUp]
          rw [fsurv_skip X o i hsurv]
        rw [he, hh]
      · have hsurv : survB X o i = true := by
          simp [survB, hi]
          simpa [List.getD_eq_getElem _ _ hi, List.getElem?_eq_getElem hi] using hc
        have hstep : phaseRev X o (fuel + 1) i acc =
            phaseRev X o fuel (i + 1) (placeRev X i acc) := by
          simp only [phaseRev]
          rw [if_pos hi, if_neg hc]
        rw [hstep, ih (i + 1) _ (by omega), headUp_place X o hnd i hi hsurv acc]
        have he : entsFrom X o i = specEntry X o i :: entsFrom X o (i + 1) := by
          rw [entsFrom_unfold, if_pos hi, if_pos hsurv]
          simp
        rw [he]
        simp
    · have hstep : phaseRev X o (fuel + 1) i acc = acc := by
        simp only [phaseRev]
        rw [if_neg hi]
      rw [hstep, entsFrom_unfold, if_neg hi]
      simp only [headUp]
      rw [fsurv_stop X o i hi]
      simp

theorem mem_entsFrom (X : Operand) (o : List Char) :
    ∀ n i, X.idx.length - i ≤ n → ∀ e ∈ entsFrom X o i,
      ∃ j, i ≤ j ∧ survB X o j = true ∧ e = specEntry X o j := by
  intro n
  induction n with
  | zero =>
    intro i hn e he
    rw [entsFrom_unfold, if_neg (by omega)] at he
    simp at he
  | succ n ih =>
    intro i hn e he
    by_cases hi : i < X.idx.length
    · rw [entsFrom_unfold, if_pos hi] at he
      rcases List.mem_append.mp he with h1 | h2
      · by_cases hs : survB X o i = true
        · rw [if_pos hs] at h1
          simp at h1
          exact ⟨i, le_refl i, hs, h1⟩
        · rw [if_neg hs] at h1
          simp at h1
      · obtain ⟨j, hj1, hj2, hj3⟩ := ih (i + 1) (by omega) e h2
        exact ⟨j, by omega, hj2, hj3⟩
    · rw [entsFrom_unfold, if_neg hi] at he
      simp at he

/-- The inferred intermediate is the surviving dimensions of `A` (against
`B`'s labels), then those of `B` (against `A`'s labels), each carrying
exactly the `specEntry` tag: its child's tag when the next dimension of
the same child also survives adjacently with a non-`NS` tag, `NS`
otherwise. -/
theorem get_intermediate_eq (A B : Operand) (hA : A.idx.Nodup)
    (hB : B.idx.Nodup) :
    get_intermediate A B = entsFrom A B.idx 0 ++ entsFrom B A.idx 0 := by
  unfold get_intermediate
  rw [phaseRev_spec A B.idx hA A.idx.length 0 [] (by omega)]
  have hacc : headUp A B.idx 0 [] = [] := by
    simp only [headUp, headUpAt]
    cases fsurv A B.idx 0 <;> rfl
  rw [hacc, List.append_nil]
  rw [phaseRev_spec B A.idx hB B.idx.length 0 _ (by omega)]
  have hnoup : headUp B A.idx 0 ((entsFrom A B.idx 0).reverse) =
      (entsFrom A B.idx 0).reverse := by
    cases hrev : (entsFrom A B.idx 0).reverse with
    | nil =>
      simp only [headUp, headUpAt]
      cases fsurv B A.idx 0 <;> rfl
    | cons p rest =>
      simp only [headUp]
      cases hfs : fsurv B A.idx 0 with
      | none => rfl
      | some k =>
        simp only [Option.elim, headUpAt]
        have hp : p ∈ entsFrom A B.idx 0 := by
          rw [← List.mem_reverse, hrev]
          exact List.mem_cons_self p rest
        obtain ⟨j, _, hjs, hje⟩ :=
          mem_entsFrom A B.idx A.idx.length 0 (by omega) p hp
        have hnc : B.idx.contains (A.idx.getD j 'z') = false := by
          simp only [survB, Bool.and_eq_true, Bool.not_eq_true'] at hjs
          exact hjs.2
        obtain ⟨hks, hk0⟩ := fsurv_mem B A.idx B.idx.length 0 k (by omega) hfs
        have hklen : k < B.idx.length := survB_lt B A.idx k hks
        by_cases h1k : 1 ≤ k
        · have hlbl : p.lbl ≠ B.idx.getD (k - 1) 'z' := by
            intro he
            have hmem : B.idx.getD (k - 1) 'z' ∈ B.idx := by
              rw [List.getD_eq_getElem _ _ (by omega)]
              exact List.getElem_mem _
            have hctrue : B.idx.contains (B.idx.getD (k - 1) 'z') = true := by
              simpa using hmem
            rw [hje] at he
            simp only [specEntry] at he
            rw [← he] at hctrue
            rw [hctrue] at hnc
            cases hnc
          rw [if_neg (fun hcon => hlbl hcon.2.1)]
        · rw [if_neg (fun hcon => h1k hcon.1)]
  rw [hnoup]
  rw [show ((entsFrom B A.idx 0).reverse ++ (entsFrom A B.idx 0).reverse) =
    (entsFrom A B.idx 0 ++ entsFrom B A.idx 0).reverse from
    (List.reverse_append _ _).symm]
  rw [List.reverse_reverse]

/-- C6 (amended): when an adjacent pair of dimensions `i, i+1` of an
operand is related by a SYMMETRIC tag and exactly one of the pair is
contracted away, the surviving dimension's entry in the inferred
intermediate carries tag NONE — except when the survivor is `i+1` and it
itself heads a surviving adjacent symmetric pair `i+1, i+2` of the same
operand, in which case (and only then) its tag is preserved from that
pair.  Symmetry tags are thus preserved exactly for adjacent surviving
pairs that were already adjacent and symmetry-related in the owning
child. -/
theorem broken_pair_downgraded (A B : Operand) (i : Nat)
    (hA : A.idx.Nodup) (hB : B.idx.Nodup)
    (hi : i + 1 < A.idx.length)
    (hsym : A.sym.getD i SymT.NS = SymT.SY) :
    (survB A B.idx i = true → survB A B.idx (i + 1) = false →
      ∀ e ∈ get_intermediate A B, e.lbl = A.idx.getD i 'z' →
        e.esym = SymT.NS) ∧
    (survB A B.idx i = false → survB A B.idx (i + 1) = true →
      (A.sym.getD (i + 1) SymT.NS = SymT.NS ∨ survB A B.idx (i + 2) = false) →
      ∀ e ∈ get_intermediate A B, e.lbl = A.idx.getD (i + 1) 'z' →
        e.esym = SymT.NS) := by
  have hmain : ∀ s : Nat, s < A.idx.length →
      ¬(survB A B.idx (s + 1) = true ∧ A.sym.getD s SymT.NS ≠ SymT.NS) →
      ∀ e ∈ get_intermediate A B, e.lbl = A.idx.getD s 'z' →
        e.esym = SymT.NS := by
    intro s hs hcond e he hlbl
    rw [get_intermediate_eq A B hA hB] at he
    rcases List.mem_append.mp he with h1 | h2
    · obtain ⟨j, _, hjs, hje⟩ :=
        mem_entsFrom A B.idx A.idx.length 0 (by omega) e h1
      have hjlen : j < A.idx.length := survB_lt _ _ _ hjs
      have hjeq : j = s := by
        by_contra hne
        have := nodup_getD_ne A.idx hA j s hjlen hs hne
        rw [hje] at hlbl
        simp only [specEntry] at hlbl
        exact this hlbl
      subst hjeq
      rw [hje]
      simp only [specEntry]
      rw [if_neg hcond]
    · exfalso
      obtain ⟨j, _, hjs, hje⟩ :=
        mem_entsFrom B A.idx B.idx.length 0 (by omega) e h2
      have hnc : A.idx.contains (B.idx.getD j 'z') = false := by
        simp only [survB, Bool.and_eq_true, Bool.not_eq_true'] at hjs
        exact hjs.2
      have hmem : A.idx.getD s 'z' ∈ A.idx := by
        rw [List.getD_eq_getElem _ _ hs]
        exact List.getElem_mem _
      rw [hje] at hlbl
      simp only [specEntry] at hlbl
      rw [hlbl] at hnc
      have : A.idx.contains (A.idx.getD s 'z') = true := by simpa using hmem
      rw [this] at hnc
      cases hnc
  constructor
  · intro hs hs1 e he hlbl
    refine hmain i (by omega) (fun hcon => ?_) e he hlbl
    rw [hs1] at hcon
    cases hcon.1
  · intro hs hs1 hside e he hlbl
    refine hmain (i + 1) (by omega) (fun hcon => ?_) e he hlbl
    rcases hside with ha | hb
    · exact hcon.2 ha
    · rw [hb] at hcon
      cases hcon.1

/-- The downgrade theorem at a concrete input: `wOpA` (labels `a b`,
symmetry `SY, NS`) contracted with `wOpB` (label `b`): the pair `0, 1` is
symmetric, dimension 1 is contracted away, and the surviving dimension
`a`'s entry in the intermediate carries tag NONE. -/
theorem broken_pair_downgraded_check :
    ((get_intermediate wOpA wOpB).getD 0 ⟨'z', 0, SymT.NS⟩).esym = SymT.NS :=
  (broken_pair_downgraded wOpA wOpB 0 (by decide) (by decide) (by decide)
      (by decide)).1 (by decide) (by decide)
    ((get_intermediate wOpA wOpB).getD 0 ⟨'z', 0, SymT.NS⟩) (by decide)
    (by decide)

/-- C6 counterexample: in `cexA` (symmetry `SY, SY, NS`, labels `a b c`)
dimensions 0 and 1 are an adjacent pair related by a SYMMETRIC tag;
contracting against `cexB` removes exactly dimension 0 of that pair
(label `a`), yet the surviving dimension `b` carries tag SYMMETRIC in the
inferred intermediate, not NONE (it heads the surviving run `b c`). -/
theorem split_symmetric_pair_keeps_tag :
    get_intermediate cexA cexB = [⟨'b', 2, .SY⟩, ⟨'c', 2, .NS⟩] ∧
      survB cexA cexB.idx 0 = false ∧ survB cexA cexB.idx 1 = true ∧
      cexA.sym.getD 0 .NS = .SY ∧
      (get_intermediate cexA cexB).getD 0 ⟨'z', 0, .NS⟩ ≠ ⟨'b', 2, .NS⟩ := by
  refine ⟨by decide, by decide, by decide, by decide, by decide⟩

end CTF
